import Mathlib

/-!
Verification of the media aspect-ratio sorter.

The development embeds the program in Lean: the mediant search of
`MediaSorter._apply_limiter` becomes a fuelled step function on bracketing
fractions, `_generate_unique_path` becomes a search over a finite list of
existing path names, `_get_dimensions` becomes a function of the two
collaborator outcomes, and `run` with `_print_summary` become a fold over
file entries followed by a summary computation.
-/

/-- Outcome of one iteration of the mediant-search loop: either the loop
returns a fraction, or it continues with updated bounds. -/
inductive SBStep where
  | done (v : ℕ × ℕ)
  | cont (lo up : ℕ × ℕ)
deriving Repr, DecidableEq

/-- One iteration of the loop body of `MediaSorter._apply_limiter`: compute the
mediant of the two bounds and compare `ratio_val * mediant[1]` with
`mediant[0]`, returning the upper bound, the mediant, or the lower bound when
the search stops, and tightened bounds otherwise. -/
def sbStep (lo up : ℕ × ℕ) (r : ℚ) (L : ℤ) : SBStep :=
  let mn := lo.1 + up.1
  let md := lo.2 + up.2
  if r * (md : ℚ) > (mn : ℚ) then
    if L < (md : ℤ) then .done up else .cont (mn, md) up
  else if r * (md : ℚ) = (mn : ℚ) then .done (mn, md)
  else
    if L < (md : ℤ) then .done lo else .cont lo (mn, md)

/-- The `while True` loop of `_apply_limiter`, run with explicit fuel. -/
def alFuel : ℕ → (ℕ × ℕ) → (ℕ × ℕ) → ℚ → ℤ → Option (ℕ × ℕ)
  | 0, _, _, _, _ => none
  | n + 1, lo, up, r, L =>
    match sbStep lo up r L with
    | .done v => some v
    | .cont lo' up' => alFuel n lo' up' r L

/-- Fuel sufficient for the mediant search to finish (proved below). -/
def alFuelAmount (r : ℚ) (L : ℤ) : ℕ := ⌈r⌉.toNat + L.toNat + 6

/-- `MediaSorter._apply_limiter`: the mediant search started from
`lower = (0, 1)`, `upper = (1, 0)`. -/
def applyLimiter (r : ℚ) (L : ℤ) : ℕ × ℕ :=
  (alFuel (alFuelAmount r L) (0, 1) (1, 0) r L).getD (0, 1)

/-- Termination measure for the loop: while the upper bound is still the
sentinel `1/0` the lower numerator climbs toward `⌈r⌉`; afterwards the
mediant denominator climbs toward the limiter. -/
def sbMeasure (r : ℚ) (L : ℤ) (a b d : ℕ) : ℕ :=
  if d = 0 then (⌈r⌉.toNat + 2 - a) + (L.toNat + 3) else (L.toNat + 3) - (b + d)

theorem alFuel_mono {v : ℕ × ℕ} :
    ∀ {n m : ℕ} {lo up : ℕ × ℕ} {r : ℚ} {L : ℤ}, n ≤ m →
      alFuel n lo up r L = some v → alFuel m lo up r L = some v := by
  intro n
  induction n with
  | zero => intro m lo up r L _ h; simp [alFuel] at h
  | succ k ih =>
    intro m lo up r L hm h
    obtain ⟨m', rfl⟩ := Nat.exists_eq_add_of_le hm
    rw [show k + 1 + m' = (k + m') + 1 by omega]
    rw [alFuel] at h ⊢
    cases hs : sbStep lo up r L with
    | done w => rw [hs] at h; exact h
    | cont lo' up' => rw [hs] at h; exact ih (Nat.le_add_right _ _) h

theorem sbStep_cont_measure {r : ℚ} {L : ℤ} {a b c d a' b' c' d' : ℕ}
    (h1 : d = 0 → b = 1 ∧ c = 1) (h2 : 1 ≤ b)
    (hs : sbStep (a, b) (c, d) r L = .cont (a', b') (c', d')) :
    (d' = 0 → b' = 1 ∧ c' = 1) ∧ 1 ≤ b' ∧
      sbMeasure r L a' b' d' < sbMeasure r L a b d := by
  unfold sbStep at hs
  simp only at hs
  split at hs
  · -- target above the mediant
    rename_i hgt
    split at hs
    · exact absurd hs (by simp)
    · rename_i hnL
      simp only [SBStep.cont.injEq, Prod.mk.injEq] at hs
      obtain ⟨⟨ha', hb'⟩, hc', hd'⟩ := hs
      subst ha' hb' hc' hd'
      by_cases hd : d = 0
      · obtain ⟨hb1, hc1⟩ := h1 hd
        subst hb1 hc1 hd
        have hr : ((a : ℤ) + 1) < ⌈r⌉ := by
          rw [Int.lt_ceil]
          push_cast at hgt ⊢
          linarith
        refine ⟨fun _ => ⟨rfl, rfl⟩, by omega, ?_⟩
        simp only [sbMeasure]
        norm_num
        omega
      · have hmd : (b + d : ℤ) ≤ L := by
          push_cast at hnL; omega
        refine ⟨fun h0 => absurd h0 hd, by omega, ?_⟩
        simp only [sbMeasure, if_neg hd]
        omega
  · rename_i hngt
    split at hs
    · exact absurd hs (by simp)
    · rename_i hne
      split at hs
      · exact absurd hs (by simp)
      · rename_i hnL
        simp only [SBStep.cont.injEq, Prod.mk.injEq] at hs
        obtain ⟨⟨ha', hb'⟩, hc', hd'⟩ := hs
        subst ha' hb' hc' hd'
        refine ⟨fun h0 => absurd h0 (by omega), by omega, ?_⟩
        by_cases hd : d = 0
        · obtain ⟨hb1, hc1⟩ := h1 hd
          subst hb1 hc1 hd
          have hL1 : (1 : ℤ) ≤ L := by
            push_cast at hnL
            omega
          simp only [sbMeasure]
          norm_num
          omega
        · have hmd : (b + d : ℤ) ≤ L := by
            push_cast at hnL; omega
          simp only [sbMeasure, if_neg hd, if_neg (by omega : ¬ b + d = 0)]
          omega

theorem alFuel_term {r : ℚ} {L : ℤ} :
    ∀ n a b c d, (d = 0 → b = 1 ∧ c = 1) → 1 ≤ b →
      sbMeasure r L a b d < n → (alFuel n (a, b) (c, d) r L).isSome := by
  intro n
  induction n with
  | zero => intro a b c d _ _ h; omega
  | succ m ih =>
    intro a b c d h1 h2 h3
    rw [alFuel]
    cases hs : sbStep (a, b) (c, d) r L with
    | done v => simp
    | cont lo' up' =>
      obtain ⟨a', b'⟩ := lo'
      obtain ⟨c', d'⟩ := up'
      obtain ⟨m1, m2, m3⟩ := sbStep_cont_measure h1 h2 hs
      exact ih a' b' c' d' m1 m2 (by omega)

theorem alFuel_init_isSome (r : ℚ) (L : ℤ) :
    (alFuel (alFuelAmount r L) (0, 1) (1, 0) r L).isSome := by
  apply alFuel_term
  · intro _; exact ⟨rfl, rfl⟩
  · exact le_refl 1
  · simp only [sbMeasure, alFuelAmount]
    norm_num
    omega

theorem applyLimiter_eq (r : ℚ) (L : ℤ) :
    alFuel (alFuelAmount r L) (0, 1) (1, 0) r L = some (applyLimiter r L) := by
  have h := alFuel_init_isSome r L
  obtain ⟨v, hv⟩ := Option.isSome_iff_exists.mp h
  rw [hv, applyLimiter, hv]
  rfl

/-- Invariant of the mediant search: the bounds bracket the target, are
adjacent in the Stern-Brocot tree (determinant one), and have denominators
within the limiter; the sentinel upper bound `1/0` is tracked by `d = 0`. -/
structure SBInv (r : ℚ) (L : ℤ) (a b c d : ℕ) : Prop where
  hb : 1 ≤ b
  det : c * b = a * d + 1
  hlow : (a : ℚ) ≤ r * (b : ℚ)
  hupp : d = 0 ∨ r * (d : ℚ) ≤ (c : ℚ)
  hbL : (b : ℤ) ≤ L
  hdL : d = 0 ∨ (d : ℤ) ≤ L

theorem sbStep_cont_SBInv {r : ℚ} {L : ℤ} {a b c d a' b' c' d' : ℕ}
    (hI : SBInv r L a b c d)
    (hs : sbStep (a, b) (c, d) r L = .cont (a', b') (c', d')) :
    SBInv r L a' b' c' d' := by
  obtain ⟨hb, det, hlow, hupp, hbL, hdL⟩ := hI
  unfold sbStep at hs
  simp only at hs
  split at hs
  · rename_i hgt
    split at hs
    · exact absurd hs (by simp)
    · rename_i hnL
      simp only [SBStep.cont.injEq, Prod.mk.injEq] at hs
      obtain ⟨⟨ha', hb'⟩, hc', hd'⟩ := hs
      subst ha' hb' hc' hd'
      refine ⟨by omega, ?_, ?_, hupp, ?_, hdL⟩
      · calc c * (b + d) = c * b + c * d := by ring
          _ = (a * d + 1) + c * d := by rw [det]
          _ = (a + c) * d + 1 := by ring
      · push_cast at hgt ⊢
        linarith
      · push_cast at hnL ⊢
        omega
  · rename_i hngt
    split at hs
    · exact absurd hs (by simp)
    · rename_i hne
      split at hs
      · exact absurd hs (by simp)
      · rename_i hnL
        simp only [SBStep.cont.injEq, Prod.mk.injEq] at hs
        obtain ⟨⟨ha', hb'⟩, hc', hd'⟩ := hs
        subst ha' hb' hc' hd'
        refine ⟨hb, ?_, hlow, Or.inr ?_, hbL, Or.inr ?_⟩
        · calc (a + c) * b = a * b + c * b := by ring
            _ = a * b + (a * d + 1) := by rw [det]
            _ = a * (b + d) + 1 := by ring
        · push_cast at hngt ⊢
          linarith
        · push_cast at hnL ⊢
          omega

theorem alFuel_sound {r : ℚ} {L : ℤ} (Inv : ℕ → ℕ → ℕ → ℕ → Prop)
    (P : ℕ × ℕ → Prop)
    (hcont : ∀ a b c d a' b' c' d', Inv a b c d →
      sbStep (a, b) (c, d) r L = .cont (a', b') (c', d') → Inv a' b' c' d')
    (hdone : ∀ a b c d v, Inv a b c d →
      sbStep (a, b) (c, d) r L = .done v → P v) :
    ∀ n a b c d v, Inv a b c d → alFuel n (a, b) (c, d) r L = some v → P v := by
  intro n
  induction n with
  | zero => intro a b c d v _ h; simp [alFuel] at h
  | succ m ih =>
    intro a b c d v hInv h
    rw [alFuel] at h
    cases hs : sbStep (a, b) (c, d) r L with
    | done w =>
      rw [hs] at h
      injection h with h'
      subst h'
      exact hdone a b c d w hInv hs
    | cont lo' up' =>
      rw [hs] at h
      obtain ⟨a', b'⟩ := lo'
      obtain ⟨c', d'⟩ := up'
      exact ih a' b' c' d' v (hcont a b c d a' b' c' d' hInv hs) h

/-- Any fraction strictly between two determinant-one neighbours has a
denominator at least the sum of theirs (mediant property). -/
theorem mediant_interval {a b c d p q : ℕ} (hb : 1 ≤ b) (hd : 1 ≤ d)
    (hq : 1 ≤ q) (hdet : c * b = a * d + 1)
    (h1 : (a : ℚ) / b < (p : ℚ) / q) (h2 : (p : ℚ) / q < (c : ℚ) / d) :
    b + d ≤ q := by
  have hb0 : (0 : ℚ) < (b : ℚ) := by exact_mod_cast Nat.lt_of_lt_of_le Nat.zero_lt_one hb
  have hd0 : (0 : ℚ) < (d : ℚ) := by exact_mod_cast Nat.lt_of_lt_of_le Nat.zero_lt_one hd
  have hq0 : (0 : ℚ) < (q : ℚ) := by exact_mod_cast Nat.lt_of_lt_of_le Nat.zero_lt_one hq
  rw [div_lt_div_iff hb0 hq0] at h1
  rw [div_lt_div_iff hq0 hd0] at h2
  have hc1 : (a : ℤ) * q < p * b := by exact_mod_cast h1
  have hc2 : (p : ℤ) * d < c * q := by exact_mod_cast h2
  have hdz : (c : ℤ) * b = a * d + 1 := by exact_mod_cast hdet
  have h3 : (1 : ℤ) ≤ c * q - p * d := by linarith
  have h4 : (1 : ℤ) ≤ p * b - a * q := by linarith
  have h5 : (q : ℤ) = b * (c * q - p * d) + d * (p * b - a * q) := by
    linear_combination (-(q : ℤ)) * hdz
  have h6 : (b : ℤ) ≤ b * (c * q - p * d) :=
    le_mul_of_one_le_right (by positivity) h3
  have h7 : (d : ℤ) ≤ d * (p * b - a * q) :=
    le_mul_of_one_le_right (by positivity) h4
  have : (b : ℤ) + d ≤ q := by linarith
  exact_mod_cast this

theorem coprime_of_mul_eq_mul_add_one {x s y t : ℕ} (h : x * s = y * t + 1) :
    Nat.Coprime x y := by
  have hx : Nat.gcd x y ∣ x * s := Dvd.dvd.mul_right (Nat.gcd_dvd_left x y) s
  have hy : Nat.gcd x y ∣ y * t := Dvd.dvd.mul_right (Nat.gcd_dvd_right x y) t
  have h1 : Nat.gcd x y ∣ 1 := by
    have h2 := Nat.dvd_sub' hx hy
    rwa [h, Nat.add_sub_cancel_left] at h2
  exact Nat.dvd_one.mp h1

theorem frac_eq_of_coprime {p q x y : ℕ} (hq : 1 ≤ q) (hy : 1 ≤ y)
    (hpq : Nat.Coprime p q) (hxy : Nat.Coprime x y)
    (h : p * y = x * q) : p = x ∧ q = y := by
  have hq_dvd : q ∣ y := by
    have h1 : q ∣ p * y := by
      rw [h]
      exact dvd_mul_left q x
    exact Nat.Coprime.dvd_of_dvd_mul_left hpq.symm h1
  have hy_dvd : y ∣ q := by
    have h1 : y ∣ x * q := by
      rw [← h]
      exact dvd_mul_left y p
    exact Nat.Coprime.dvd_of_dvd_mul_left hxy.symm h1
  have hqy : q = y := Nat.dvd_antisymm hq_dvd hy_dvd
  subst hqy
  exact ⟨Nat.eq_of_mul_eq_mul_right (by omega) h, rfl⟩

theorem upper_denom_pos {L : ℤ} {a b c d : ℕ} (det : c * b = a * d + 1)
    (hL : 1 ≤ L) (hmd : L < ((b + d : ℕ) : ℤ)) : 1 ≤ d := by
  by_contra h
  have hd0 : d = 0 := by omega
  subst hd0
  have hb1 : b = 1 := by
    have h1 : c * b = 1 := by simpa using det
    exact Nat.eq_one_of_mul_eq_one_left h1
  subst hb1
  push_cast at hmd
  omega

theorem sbStep_done_basic {r : ℚ} {L : ℤ} {a b c d x y : ℕ}
    (hI : SBInv r L a b c d) (hL : 1 ≤ L)
    (hs : sbStep (a, b) (c, d) r L = .done (x, y)) :
    1 ≤ y ∧ ((y : ℤ) ≤ L ∨ (x : ℚ) = r * (y : ℚ)) := by
  obtain ⟨hb, det, hlow, hupp, hbL, hdL⟩ := hI
  unfold sbStep at hs
  simp only at hs
  split at hs
  · rename_i hgt
    split at hs
    · rename_i hL2
      simp only [SBStep.done.injEq, Prod.mk.injEq] at hs
      obtain ⟨hx, hy⟩ := hs
      subst hx hy
      have hd1 : 1 ≤ d := upper_denom_pos det hL hL2
      exact ⟨hd1, Or.inl (hdL.resolve_left (by omega))⟩
    · exact absurd hs (by simp)
  · split at hs
    · rename_i heq
      simp only [SBStep.done.injEq, Prod.mk.injEq] at hs
      obtain ⟨hx, hy⟩ := hs
      subst hx hy
      exact ⟨by omega, Or.inr heq.symm⟩
    · split at hs
      · rename_i hL2
        simp only [SBStep.done.injEq, Prod.mk.injEq] at hs
        obtain ⟨hx, hy⟩ := hs
        subst hx hy
        exact ⟨hb, Or.inl hbL⟩
      · exact absurd hs (by simp)

theorem SBInv_init {r : ℚ} {L : ℤ} (hr : 0 ≤ r) (hL : 1 ≤ L) :
    SBInv r L 0 1 1 0 := by
  refine ⟨le_refl 1, by norm_num, ?_, Or.inl rfl, hL, Or.inl rfl⟩
  push_cast
  linarith

/-- C1 (amended), core form: for `r ≥ 0` and `limiter ≥ 1` the returned pair
has `y ≥ 1`, and `y ≤ limiter` unless the exact-match branch fired. -/
theorem applyLimiter_basic {r : ℚ} {L : ℤ} (hr : 0 ≤ r) (hL : 1 ≤ L) :
    1 ≤ (applyLimiter r L).2 ∧
      (((applyLimiter r L).2 : ℤ) ≤ L ∨
        ((applyLimiter r L).1 : ℚ) = r * ((applyLimiter r L).2 : ℚ)) := by
  refine alFuel_sound (SBInv r L)
    (fun v => 1 ≤ v.2 ∧ ((v.2 : ℤ) ≤ L ∨ (v.1 : ℚ) = r * (v.2 : ℚ)))
    ?_ ?_ (alFuelAmount r L) 0 1 1 0 _ (SBInv_init hr hL) (applyLimiter_eq r L)
  · intro a b c d a' b' c' d' hI hs
    exact sbStep_cont_SBInv hI hs
  · intro a b c d v hI hs
    obtain ⟨x, y⟩ := v
    exact sbStep_done_basic hI hL hs

/-- The rational `v` lies strictly between `u` and `w` (in either order). -/
def StrictlyBetween (u v w : ℚ) : Prop := (u < v ∧ v < w) ∨ (w < v ∧ v < u)

theorem natCast_pos_of_one_le {n : ℕ} (h : 1 ≤ n) : (0 : ℚ) < (n : ℚ) := by
  exact_mod_cast Nat.lt_of_lt_of_le Nat.zero_lt_one h

theorem sbStep_done_between {r : ℚ} {L : ℤ} {a b c d x y : ℕ}
    (hI : SBInv r L a b c d) (hL : 1 ≤ L)
    (hs : sbStep (a, b) (c, d) r L = .done (x, y)) :
    ∀ p q : ℕ, 1 ≤ q → (q : ℤ) ≤ L →
      ¬ StrictlyBetween ((x : ℚ) / (y : ℚ)) ((p : ℚ) / (q : ℚ)) r := by
  obtain ⟨hb, det, hlow, hupp, hbL, hdL⟩ := hI
  intro p q hq hqL hB
  have hb0 : (0 : ℚ) < (b : ℚ) := natCast_pos_of_one_le hb
  have hlow' : (a : ℚ) / b ≤ r := by
    rw [div_le_iff₀ hb0]
    exact hlow
  unfold sbStep at hs
  simp only at hs
  split at hs
  · rename_i hgt
    split at hs
    · rename_i hL2
      simp only [SBStep.done.injEq, Prod.mk.injEq] at hs
      obtain ⟨hx, hy⟩ := hs
      subst hx hy
      have hd1 : 1 ≤ d := upper_denom_pos det hL hL2
      have hd0 : (0 : ℚ) < (d : ℚ) := natCast_pos_of_one_le hd1
      have hupp' : r ≤ (c : ℚ) / d := by
        rw [le_div_iff₀ hd0]
        exact hupp.resolve_left (by omega)
      cases hB with
      | inl h => obtain ⟨h1, h2⟩ := h; linarith
      | inr h =>
        obtain ⟨h1, h2⟩ := h
        have hint := mediant_interval hb hd1 hq det (lt_of_le_of_lt hlow' h1) h2
        push_cast at hL2
        omega
    · exact absurd hs (by simp)
  · rename_i hngt
    split at hs
    · rename_i heq
      simp only [SBStep.done.injEq, Prod.mk.injEq] at hs
      obtain ⟨hx, hy⟩ := hs
      subst hx hy
      have hmd0 : (0 : ℚ) < ((b + d : ℕ) : ℚ) := natCast_pos_of_one_le (by omega)
      have hval : ((a + c : ℕ) : ℚ) / ((b + d : ℕ) : ℚ) = r := by
        rw [div_eq_iff (ne_of_gt hmd0)]
        exact heq.symm
      rw [hval] at hB
      cases hB with
      | inl h => obtain ⟨h1, h2⟩ := h; linarith
      | inr h => obtain ⟨h1, h2⟩ := h; linarith
    · rename_i hne
      split at hs
      · rename_i hL2
        simp only [SBStep.done.injEq, Prod.mk.injEq] at hs
        obtain ⟨hx, hy⟩ := hs
        subst hx hy
        have hd1 : 1 ≤ d := upper_denom_pos det hL hL2
        have hd0 : (0 : ℚ) < (d : ℚ) := natCast_pos_of_one_le hd1
        have hupp' : r ≤ (c : ℚ) / d := by
          rw [le_div_iff₀ hd0]
          exact hupp.resolve_left (by omega)
        cases hB with
        | inl h =>
          obtain ⟨h1, h2⟩ := h
          have hint := mediant_interval hb hd1 hq det h1 (lt_of_lt_of_le h2 hupp')
          push_cast at hL2
          omega
        | inr h => obtain ⟨h1, h2⟩ := h; linarith
      · exact absurd hs (by simp)

theorem sbStep_done_exact {r : ℚ} {L : ℤ} {a b c d x y p0 q0 : ℕ}
    (hI : SBInv r L a b c d) (hr : r = (p0 : ℚ) / (q0 : ℚ))
    (hcop : Nat.Coprime p0 q0) (hq0 : 1 ≤ q0) (hq0L : (q0 : ℤ) ≤ L)
    (hs : sbStep (a, b) (c, d) r L = .done (x, y)) : x = p0 ∧ y = q0 := by
  obtain ⟨hb, det, hlow, hupp, hbL, hdL⟩ := hI
  have hL : (1 : ℤ) ≤ L := le_trans (by exact_mod_cast hq0) hq0L
  have hb0 : (0 : ℚ) < (b : ℚ) := natCast_pos_of_one_le hb
  have hq00 : (0 : ℚ) < (q0 : ℚ) := natCast_pos_of_one_le hq0
  have hmd0 : (0 : ℚ) < ((b + d : ℕ) : ℚ) := natCast_pos_of_one_le (by omega)
  unfold sbStep at hs
  simp only at hs
  split at hs
  · rename_i hgt
    split at hs
    · rename_i hL2
      simp only [SBStep.done.injEq, Prod.mk.injEq] at hs
      obtain ⟨hx, hy⟩ := hs
      subst hx hy
      have hd1 : 1 ≤ d := upper_denom_pos det hL hL2
      have hd0 : (0 : ℚ) < (d : ℚ) := natCast_pos_of_one_le hd1
      have hupp' : r ≤ (c : ℚ) / d := by
        rw [le_div_iff₀ hd0]
        exact hupp.resolve_left (by omega)
      rcases eq_or_lt_of_le hupp' with hEq | hLt
      · rw [hr] at hEq
        rw [div_eq_div_iff (ne_of_gt hq00) (ne_of_gt hd0)] at hEq
        have hnat : p0 * d = c * q0 := by exact_mod_cast hEq
        have det' : c * b = d * a + 1 := by rw [Nat.mul_comm a d] at det; exact det
        have hcd : Nat.Coprime c d := coprime_of_mul_eq_mul_add_one det'
        obtain ⟨hp, hqq⟩ := frac_eq_of_coprime hq0 hd1 hcop hcd hnat
        exact ⟨hp.symm, hqq.symm⟩
      · exfalso
        have hmn_lt : ((a + c : ℕ) : ℚ) / ((b + d : ℕ) : ℚ) < r := by
          rw [div_lt_iff₀ hmd0]
          push_cast at hgt ⊢
          linarith
        have hdet2 : c * (b + d) = (a + c) * d + 1 := by
          calc c * (b + d) = c * b + c * d := by ring
            _ = (a * d + 1) + c * d := by rw [det]
            _ = (a + c) * d + 1 := by ring
        rw [hr] at hmn_lt hLt
        have hint := mediant_interval (show 1 ≤ b + d by omega) hd1 hq0 hdet2
          hmn_lt hLt
        push_cast at hL2
        omega
    · exact absurd hs (by simp)
  · rename_i hngt
    split at hs
    · rename_i heq
      simp only [SBStep.done.injEq, Prod.mk.injEq] at hs
      obtain ⟨hx, hy⟩ := hs
      subst hx hy
      have hcross : (p0 : ℚ) * ((b + d : ℕ) : ℚ) = ((a + c : ℕ) : ℚ) * (q0 : ℚ) := by
        calc (p0 : ℚ) * ((b + d : ℕ) : ℚ)
            = (r * q0) * ((b + d : ℕ) : ℚ) := by
              rw [hr, div_mul_cancel₀ _ (ne_of_gt hq00)]
          _ = (r * ((b + d : ℕ) : ℚ)) * q0 := by ring
          _ = ((a + c : ℕ) : ℚ) * (q0 : ℚ) := by rw [heq]
      have hnat : p0 * (b + d) = (a + c) * q0 := by exact_mod_cast hcross
      have hdet2 : (b + d) * c = (a + c) * d + 1 := by
        calc (b + d) * c = c * b + c * d := by ring
          _ = (a * d + 1) + c * d := by rw [det]
          _ = (a + c) * d + 1 := by ring
      have hcmd : Nat.Coprime (a + c) (b + d) :=
        (coprime_of_mul_eq_mul_add_one hdet2).symm
      obtain ⟨hp, hqq⟩ := frac_eq_of_coprime hq0 (by omega) hcop hcmd hnat
      exact ⟨hp.symm, hqq.symm⟩
    · rename_i hne
      split at hs
      · rename_i hL2
        simp only [SBStep.done.injEq, Prod.mk.injEq] at hs
        obtain ⟨hx, hy⟩ := hs
        subst hx hy
        have hlow' : (a : ℚ) / b ≤ r := by
          rw [div_le_iff₀ hb0]
          exact hlow
        rcases eq_or_lt_of_le hlow' with hEq | hLt
        · rw [hr] at hEq
          rw [div_eq_div_iff (ne_of_gt hb0) (ne_of_gt hq00)] at hEq
          have hnat : p0 * b = a * q0 := by
            have h1 : a * q0 = p0 * b := by exact_mod_cast hEq
            omega
          have det' : b * c = a * d + 1 := by rw [Nat.mul_comm b c]; exact det
          have hab : Nat.Coprime a b :=
            (coprime_of_mul_eq_mul_add_one det').symm
          obtain ⟨hp, hqq⟩ := frac_eq_of_coprime hq0 hb hcop hab hnat
          exact ⟨hp.symm, hqq.symm⟩
        · exfalso
          have hlt : r < ((a + c : ℕ) : ℚ) / ((b + d : ℕ) : ℚ) := by
            rw [lt_div_iff₀ hmd0]
            exact lt_of_le_of_ne (le_of_not_lt hngt) hne
          have hdet2 : (a + c) * b = a * (b + d) + 1 := by
            calc (a + c) * b = a * b + c * b := by ring
              _ = a * b + (a * d + 1) := by rw [det]
              _ = a * (b + d) + 1 := by ring
          rw [hr] at hlt hLt
          have hint := mediant_interval hb (show 1 ≤ b + d by omega) hq0 hdet2
            hLt hlt
          push_cast at hL2
          omega
      · exact absurd hs (by simp)

theorem applyLimiter_eval {r : ℚ} {L : ℤ} {v : ℕ × ℕ} (n : ℕ)
    (h : alFuel n (0, 1) (1, 0) r L = some v) (hn : n ≤ alFuelAmount r L) :
    applyLimiter r L = v := by
  have h2 := alFuel_mono hn h
  have h3 := applyLimiter_eq r L
  rw [h2] at h3
  injection h3 with h4
  exact h4.symm

theorem alFuelAmount_ge_six (r : ℚ) (L : ℤ) : 6 ≤ alFuelAmount r L := by
  unfold alFuelAmount
  omega

theorem applyLimiter_between {r : ℚ} {L : ℤ} (hr : 0 ≤ r) (hL : 1 ≤ L) :
    ∀ p q : ℕ, 1 ≤ q → (q : ℤ) ≤ L →
      ¬ StrictlyBetween
        (((applyLimiter r L).1 : ℚ) / ((applyLimiter r L).2 : ℚ))
        ((p : ℚ) / (q : ℚ)) r := by
  refine alFuel_sound (SBInv r L)
    (fun v => ∀ p q : ℕ, 1 ≤ q → (q : ℤ) ≤ L →
      ¬ StrictlyBetween ((v.1 : ℚ) / (v.2 : ℚ)) ((p : ℚ) / (q : ℚ)) r)
    ?_ ?_ (alFuelAmount r L) 0 1 1 0 _ (SBInv_init hr hL) (applyLimiter_eq r L)
  · intro a b c d a' b' c' d' hI hs
    exact sbStep_cont_SBInv hI hs
  · intro a b c d v hI hs
    obtain ⟨x, y⟩ := v
    exact sbStep_done_between hI hL hs

theorem applyLimiter_exact (x0 y0 : ℕ) (L : ℤ) (hcop : Nat.Coprime x0 y0)
    (hy0 : 1 ≤ y0) (hyL : (y0 : ℤ) ≤ L) :
    applyLimiter ((x0 : ℚ) / (y0 : ℚ)) L = (x0, y0) := by
  have hr0 : 0 ≤ (x0 : ℚ) / (y0 : ℚ) := by positivity
  have hL : (1 : ℤ) ≤ L := le_trans (by exact_mod_cast hy0) hyL
  refine alFuel_sound (SBInv ((x0 : ℚ) / (y0 : ℚ)) L)
    (fun v => v = (x0, y0))
    ?_ ?_ (alFuelAmount _ L) 0 1 1 0 _ (SBInv_init hr0 hL)
    (applyLimiter_eq ((x0 : ℚ) / (y0 : ℚ)) L)
  · intro a b c d a' b' c' d' hI hs
    exact sbStep_cont_SBInv hI hs
  · intro a b c d v hI hs
    obtain ⟨x, y⟩ := v
    obtain ⟨hx, hy⟩ := sbStep_done_exact hI rfl hcop hy0 hyL hs
    rw [hx, hy]

theorem applyLimiter_limiter_one (r : ℚ) :
    (applyLimiter r 1).2 = 1 ∨
      ((applyLimiter r 1).2 = 2 ∧ ((applyLimiter r 1).1 : ℚ) = r * 2) := by
  refine alFuel_sound (fun _ b _ d => b = 1 ∧ d ≤ 1)
    (fun v => v.2 = 1 ∨ (v.2 = 2 ∧ (v.1 : ℚ) = r * 2))
    ?_ ?_ (alFuelAmount r 1) 0 1 1 0 _ ⟨rfl, by omega⟩ (applyLimiter_eq r 1)
  · intro a b c d a' b' c' d' hI hs
    obtain ⟨hb1, hd1⟩ := hI
    subst hb1
    unfold sbStep at hs
    simp only at hs
    split at hs
    · split at hs
      · exact absurd hs (by simp)
      · rename_i hnL
        have hd0 : d = 0 := by push_cast at hnL; omega
        simp only [SBStep.cont.injEq, Prod.mk.injEq] at hs
        obtain ⟨⟨_, hb'⟩, _, hd'⟩ := hs
        omega
    · split at hs
      · exact absurd hs (by simp)
      · split at hs
        · exact absurd hs (by simp)
        · rename_i hnL
          have hd0 : d = 0 := by push_cast at hnL; omega
          simp only [SBStep.cont.injEq, Prod.mk.injEq] at hs
          obtain ⟨⟨_, hb'⟩, _, hd'⟩ := hs
          omega
  · intro a b c d v hI hs
    obtain ⟨hb1, hd1⟩ := hI
    subst hb1
    obtain ⟨x, y⟩ := v
    unfold sbStep at hs
    simp only at hs
    split at hs
    · split at hs
      · rename_i hL2
        simp only [SBStep.done.injEq, Prod.mk.injEq] at hs
        obtain ⟨hx, hy⟩ := hs
        subst hx hy
        left
        push_cast at hL2
        omega
      · exact absurd hs (by simp)
    · split at hs
      · rename_i heq
        simp only [SBStep.done.injEq, Prod.mk.injEq] at hs
        obtain ⟨hx, hy⟩ := hs
        subst hx hy
        rcases (by omega : d = 0 ∨ d = 1) with hd0 | hd0
        · subst hd0
          left
          rfl
        · subst hd0
          right
          refine ⟨rfl, ?_⟩
          push_cast at heq ⊢
          linarith
      · split at hs
        · simp only [SBStep.done.injEq, Prod.mk.injEq] at hs
          obtain ⟨hx, hy⟩ := hs
          subst hx hy
          left
          rfl
        · exact absurd hs (by simp)

theorem applyLimiter_lim_lt_one (r : ℚ) (L : ℤ) (hL : L < 1) :
    (1 < r → applyLimiter r L = (1, 0)) ∧
      (r = 1 → applyLimiter r L = (1, 1)) ∧
      (r < 1 → applyLimiter r L = (0, 1)) := by
  refine ⟨?_, ?_, ?_⟩
  · intro hr
    refine applyLimiter_eval 1 ?_ (by have := alFuelAmount_ge_six r L; omega)
    rw [alFuel]
    have hs : sbStep (0, 1) (1, 0) r L = .done (1, 0) := by
      unfold sbStep
      norm_num
      rw [if_pos hr, if_pos hL]
    rw [hs]
  · intro hr
    refine applyLimiter_eval 1 ?_ (by have := alFuelAmount_ge_six r L; omega)
    rw [alFuel]
    have hs : sbStep (0, 1) (1, 0) r L = .done (1, 1) := by
      unfold sbStep
      norm_num
      rw [if_neg (by simp [hr]), if_pos hr]
    rw [hs]
  · intro hr
    refine applyLimiter_eval 1 ?_ (by have := alFuelAmount_ge_six r L; omega)
    rw [alFuel]
    have hs : sbStep (0, 1) (1, 0) r L = .done (0, 1) := by
      unfold sbStep
      norm_num
      rw [if_neg (by linarith : ¬ r > 1), if_neg (by linarith : ¬ r = 1),
        if_pos hL]
    rw [hs]

/-- C1 (counterexample): with `r = 1/2` (width 1, height 2) and `limiter = 1`,
`_apply_limiter` returns `(1, 2)`, whose denominator exceeds the limiter, so
the claimed bound `y ≤ limiter` fails: the exact-match branch is not guarded
by the limiter. -/
theorem claim_C1_cex :
    applyLimiter ((1 : ℚ) / 2) 1 = (1, 2) ∧
      ¬ (((applyLimiter ((1 : ℚ) / 2) 1).2 : ℤ) ≤ 1) := by
  have h : applyLimiter ((1 : ℚ) / 2) 1 = (1, 2) :=
    applyLimiter_eval 6 (by norm_num [alFuel, sbStep])
      (alFuelAmount_ge_six _ _)
  rw [h]
  norm_num

/-- C1 (amended): for every ratio `r ≥ 0` and integer `limiter ≥ 1`,
`_apply_limiter` returns `(x, y)` with `x ≥ 0` (by type), `y ≥ 1`, and
`y ≤ limiter` unless the exact-match branch fired, in which case `x/y = r`
exactly (stated as `x = r * y`). -/
theorem claim_C1_amended (r : ℚ) (L : ℤ) (hr : 0 ≤ r) (hL : 1 ≤ L) :
    1 ≤ (applyLimiter r L).2 ∧
      (((applyLimiter r L).2 : ℤ) ≤ L ∨
        ((applyLimiter r L).1 : ℚ) = r * ((applyLimiter r L).2 : ℚ)) :=
  applyLimiter_basic hr hL

/-- C1 witness: the amended claim instantiated at `r = 16/9`, `limiter = 10`. -/
theorem claim_C1_witness :
    1 ≤ (applyLimiter ((16 : ℚ) / 9) 10).2 ∧
      (((applyLimiter ((16 : ℚ) / 9) 10).2 : ℤ) ≤ 10 ∨
        ((applyLimiter ((16 : ℚ) / 9) 10).1 : ℚ) =
          ((16 : ℚ) / 9) * ((applyLimiter ((16 : ℚ) / 9) 10).2 : ℚ)) :=
  claim_C1_amended ((16 : ℚ) / 9) 10 (by norm_num) (by norm_num)

/-- C2 (counterexample): with `r = 3/10` and `limiter = 2` the search returns
`0/1`, but `1/2` has denominator `≤ 2` and is strictly closer to `r`, so the
returned fraction does not minimise the distance. -/
theorem claim_C2_cex :
    applyLimiter ((3 : ℚ) / 10) 2 = (0, 1) ∧
      |(1 : ℚ) / 2 - 3 / 10| <
        |((applyLimiter ((3 : ℚ) / 10) 2).1 : ℚ) /
            ((applyLimiter ((3 : ℚ) / 10) 2).2 : ℚ) - 3 / 10| := by
  have h : applyLimiter ((3 : ℚ) / 10) 2 = (0, 1) :=
    applyLimiter_eval 6 (by norm_num [alFuel, sbStep])
      (alFuelAmount_ge_six _ _)
  rw [h]
  rw [show |(1 : ℚ) / 2 - 3 / 10| = 1 / 5 by rw [abs_of_pos] <;> norm_num]
  rw [show |((0 : ℕ) : ℚ) / ((1 : ℕ) : ℚ) - 3 / 10| = 3 / 10 by
    rw [abs_of_nonpos] <;> norm_num]
  norm_num

/-- C2 (amended): the fraction returned for `r ≥ 0` and `limiter ≥ 1` is a
best one-sided approximation: no fraction with denominator between 1 and
`limiter` lies strictly between `x/y` and `r`. -/
theorem claim_C2_amended (r : ℚ) (L : ℤ) (hr : 0 ≤ r) (hL : 1 ≤ L) :
    ∀ p q : ℕ, 1 ≤ q → (q : ℤ) ≤ L →
      ¬ StrictlyBetween
        (((applyLimiter r L).1 : ℚ) / ((applyLimiter r L).2 : ℚ))
        ((p : ℚ) / (q : ℚ)) r :=
  applyLimiter_between hr hL

/-- C2 witness: the amended claim instantiated at `r = 3/10`, `limiter = 2`,
candidate fraction `1/2`. -/
theorem claim_C2_witness :
    ¬ StrictlyBetween
      (((applyLimiter ((3 : ℚ) / 10) 2).1 : ℚ) /
        ((applyLimiter ((3 : ℚ) / 10) 2).2 : ℚ))
      (((1 : ℕ) : ℚ) / ((2 : ℕ) : ℚ)) ((3 : ℚ) / 10) :=
  claim_C2_amended ((3 : ℚ) / 10) 2 (by norm_num) (by norm_num) 1 2
    (by norm_num) (by norm_num)

/-- C3 (confirmed): for every ratio `r ≥ 0` and every integer `limiter`
(including `limiter < 1`), the mediant-search loop terminates: the fuelled
embedding succeeds within `alFuelAmount r L` iterations. -/
theorem claim_C3_termination (r : ℚ) (L : ℤ) (hr : 0 ≤ r) :
    ∃ v, alFuel (alFuelAmount r L) (0, 1) (1, 0) r L = some v :=
  ⟨applyLimiter r L, applyLimiter_eq r L⟩

/-- C3 witness: termination instantiated at `r = 3/2` with the degenerate
limiter `-5 < 1`. -/
theorem claim_C3_witness :
    ∃ v, alFuel (alFuelAmount ((3 : ℚ) / 2) (-5)) (0, 1) (1, 0)
      ((3 : ℚ) / 2) (-5) = some v :=
  claim_C3_termination ((3 : ℚ) / 2) (-5) (by norm_num)

/-- C4 (confirmed): exact-match idempotence. For coprime `(x0, y0)` with
`1 ≤ y0 ≤ limiter`, `_apply_limiter (x0 / y0)` returns exactly `(x0, y0)`. -/
theorem claim_C4_idempotence (x0 y0 : ℕ) (L : ℤ) (hcop : Nat.Coprime x0 y0)
    (hy0 : 1 ≤ y0) (hyL : (y0 : ℤ) ≤ L) :
    applyLimiter ((x0 : ℚ) / (y0 : ℚ)) L = (x0, y0) :=
  applyLimiter_exact x0 y0 L hcop hy0 hyL

/-- C4 witness: idempotence instantiated at `16/9` with limiter 10. -/
theorem claim_C4_witness :
    applyLimiter (((16 : ℕ) : ℚ) / ((9 : ℕ) : ℚ)) 10 = (16, 9) :=
  claim_C4_idempotence 16 9 10 (by decide) (by decide) (by decide)

/-- C5 (counterexample): with `r = 1/2` and `limiter = 1` the exact-match
branch returns `(1, 2)`, which is neither `(0, 1)` nor `(1, 1)`. -/
theorem claim_C5_cex :
    ¬ (applyLimiter ((1 : ℚ) / 2) 1 = (0, 1) ∨
        applyLimiter ((1 : ℚ) / 2) 1 = (1, 1)) := by
  have h : applyLimiter ((1 : ℚ) / 2) 1 = (1, 2) :=
    applyLimiter_eval 6 (by norm_num [alFuel, sbStep])
      (alFuelAmount_ge_six _ _)
  rw [h]
  simp

/-- C5 (amended): with `limiter = 1` the result has denominator 1 (an
integer ratio), except when `r` is exactly a half-integer, in which case the
exact-match branch returns that fraction with denominator 2. -/
theorem claim_C5_amended (r : ℚ) (hr : 0 ≤ r) :
    (applyLimiter r 1).2 = 1 ∨
      ((applyLimiter r 1).2 = 2 ∧ ((applyLimiter r 1).1 : ℚ) = r * 2) :=
  applyLimiter_limiter_one r

/-- C5 witness: the amended claim instantiated at `r = 1/2`. -/
theorem claim_C5_witness :
    (applyLimiter ((1 : ℚ) / 2) 1).2 = 1 ∨
      ((applyLimiter ((1 : ℚ) / 2) 1).2 = 2 ∧
        ((applyLimiter ((1 : ℚ) / 2) 1).1 : ℚ) = ((1 : ℚ) / 2) * 2) :=
  claim_C5_amended ((1 : ℚ) / 2) (by norm_num)

/-- C6 (counterexample): with `limiter = 0 < 1` and `r = 2 > 1` the search
returns the sentinel `(1, 0)` itself — a zero denominator — refuting both
that the sentinel is never returned and that the unguarded `limiter < 1`
case always yields a denominator-1 result. -/
theorem claim_C6_cex :
    applyLimiter (2 : ℚ) 0 = (1, 0) ∧ (applyLimiter (2 : ℚ) 0).2 = 0 := by
  have h : applyLimiter (2 : ℚ) 0 = (1, 0) :=
    applyLimiter_eval 6 (by norm_num [alFuel, sbStep])
      (alFuelAmount_ge_six _ _)
  exact ⟨h, by rw [h]⟩

/-- C6 (amended): for `limiter ≥ 1` (and `r ≥ 0`) the returned denominator is
nonzero; in the unguarded `limiter < 1` case the code returns the sentinel
`(1, 0)` exactly when `r > 1`, and a denominator-1 result otherwise. -/
theorem claim_C6_amended (r : ℚ) (L : ℤ) :
    (0 ≤ r → 1 ≤ L → 1 ≤ (applyLimiter r L).2) ∧
      (L < 1 →
        (1 < r → applyLimiter r L = (1, 0)) ∧
          (r = 1 → applyLimiter r L = (1, 1)) ∧
          (r < 1 → applyLimiter r L = (0, 1))) := by
  constructor
  · intro hr hL
    exact (applyLimiter_basic hr hL).1
  · intro hL
    exact applyLimiter_lim_lt_one r L hL

/-- C6 witness: the amended claim instantiated at `r = 2`, `limiter = 0`:
the sentinel is returned. -/
theorem claim_C6_witness : applyLimiter (2 : ℚ) 0 = (1, 0) :=
  ((claim_C6_amended (2 : ℚ) 0).2 (by norm_num)).1 (by norm_num)

/-- Little-endian decimal digits of a natural number, by fuelled division
(the fuel argument makes the recursion structural). -/
def decDigitsAux : ℕ → ℕ → List ℕ
  | 0, _ => []
  | fuel + 1, n => if n = 0 then [] else n % 10 :: decDigitsAux fuel (n / 10)

def decDigits (n : ℕ) : List ℕ := decDigitsAux n n

/-- Decimal rendering of a natural number, as Python renders `{counter}`. -/
def decRepr (n : ℕ) : String :=
  if n = 0 then "0" else (((decDigits n).map Nat.digitChar).reverse).asString

/-- Decimal rendering of an integer, as Python renders `{self.limiter}`. -/
def intRepr (i : ℤ) : String :=
  if i < 0 then "-" ++ decRepr i.natAbs else decRepr i.toNat

/-- The base output name `f"{self.target_path.name}_sorted_L{self.limiter}"`. -/
def sortedBaseName (dirName : String) (L : ℤ) : String :=
  dirName ++ "_sorted_L" ++ intRepr L

/-- A collision-suffixed candidate `f"{base_name} ({counter})"`. -/
def sortedCandidate (base : String) (n : ℕ) : String :=
  base ++ " (" ++ decRepr n ++ ")"

def fromDecDigits : List ℕ → ℕ
  | [] => 0
  | d :: ds => d + 10 * fromDecDigits ds

theorem decDigitsAux_spec : ∀ fuel n, n ≤ fuel →
    fromDecDigits (decDigitsAux fuel n) = n := by
  intro fuel
  induction fuel with
  | zero =>
    intro n h
    have : n = 0 := by omega
    subst this
    rfl
  | succ f ih =>
    intro n h
    rw [decDigitsAux]
    by_cases h0 : n = 0
    · subst h0; rfl
    · rw [if_neg h0]
      have hdiv : n / 10 ≤ f := by
        have := Nat.div_lt_self (by omega : 0 < n) (by omega : 1 < 10)
        omega
      simp only [fromDecDigits]
      rw [ih (n / 10) hdiv]
      omega

theorem decDigits_inj {m n : ℕ} (h : decDigits m = decDigits n) : m = n := by
  have hm := decDigitsAux_spec m m le_rfl
  have hn := decDigitsAux_spec n n le_rfl
  unfold decDigits at h
  rw [← hm, ← hn, h]

theorem decDigitsAux_lt : ∀ fuel n d, d ∈ decDigitsAux fuel n → d < 10 := by
  intro fuel
  induction fuel with
  | zero => intro n d h; simp [decDigitsAux] at h
  | succ f ih =>
    intro n d h
    rw [decDigitsAux] at h
    by_cases h0 : n = 0
    · rw [if_pos h0] at h; simp at h
    · rw [if_neg h0] at h
      rcases List.mem_cons.mp h with h1 | h1
      · omega
      · exact ih _ _ h1

theorem digitChar_fin_inj : ∀ a b : Fin 10,
    Nat.digitChar a.val = Nat.digitChar b.val → a = b := by decide

theorem digitChar_inj_lt (a b : ℕ) (ha : a < 10) (hb : b < 10)
    (h : Nat.digitChar a = Nat.digitChar b) : a = b := by
  have := digitChar_fin_inj ⟨a, ha⟩ ⟨b, hb⟩ h
  exact congrArg Fin.val this

theorem map_digitChar_inj : ∀ l1 l2 : List ℕ, (∀ x ∈ l1, x < 10) →
    (∀ x ∈ l2, x < 10) → l1.map Nat.digitChar = l2.map Nat.digitChar →
    l1 = l2 := by
  intro l1
  induction l1 with
  | nil =>
    intro l2 _ _ h
    cases l2 with
    | nil => rfl
    | cons b t2 => simp at h
  | cons a t ih =>
    intro l2 h1 h2 h
    cases l2 with
    | nil => simp at h
    | cons b t2 =>
      simp only [List.map_cons, List.cons.injEq] at h
      obtain ⟨hab, ht⟩ := h
      have ha : a = b := digitChar_inj_lt a b (h1 a (by simp)) (h2 b (by simp)) hab
      rw [ha, ih t2 (fun x hx => h1 x (by simp [hx])) (fun x hx => h2 x (by simp [hx])) ht]

theorem string_data_append (s t : String) : (s ++ t).data = s.data ++ t.data := rfl

theorem asString_data (l : List Char) : l.asString.data = l := rfl

theorem decRepr_inj : Function.Injective decRepr := by
  intro m n h
  unfold decRepr at h
  by_cases hm : m = 0 <;> by_cases hn : n = 0
  · omega
  · exfalso
    rw [if_pos hm, if_neg hn] at h
    have hd : ("0" : String).data = (((decDigits n).map Nat.digitChar).reverse).asString.data := by
      rw [h]
    rw [asString_data] at hd
    have hrev : (decDigits n).map Nat.digitChar = ['0'] := by
      have h2 : ((decDigits n).map Nat.digitChar).reverse = ['0'] := hd.symm
      have h3 := congrArg List.reverse h2
      rwa [List.reverse_reverse] at h3
    have hdig : decDigits n = [0] :=
      map_digitChar_inj (decDigits n) [0]
        (fun x hx => decDigitsAux_lt _ _ _ hx)
        (by intro x hx; simp at hx; omega)
        (by rw [hrev]; rfl)
    have := decDigitsAux_spec n n le_rfl
    unfold decDigits at hdig
    rw [hdig] at this
    simp [fromDecDigits] at this
    omega
  · exfalso
    rw [if_neg hm, if_pos hn] at h
    have hd : (((decDigits m).map Nat.digitChar).reverse).asString.data = ("0" : String).data := by
      rw [h]
    rw [asString_data] at hd
    have hrev : (decDigits m).map Nat.digitChar = ['0'] := by
      have h3 := congrArg List.reverse hd
      rwa [List.reverse_reverse] at h3
    have hdig : decDigits m = [0] :=
      map_digitChar_inj (decDigits m) [0]
        (fun x hx => decDigitsAux_lt _ _ _ hx)
        (by intro x hx; simp at hx; omega)
        (by rw [hrev]; rfl)
    have := decDigitsAux_spec m m le_rfl
    unfold decDigits at hdig
    rw [hdig] at this
    simp [fromDecDigits] at this
    omega
  · rw [if_neg hm, if_neg hn] at h
    have hd := congrArg String.data h
    rw [asString_data, asString_data] at hd
    have h3 := congrArg List.reverse hd
    rw [List.reverse_reverse, List.reverse_reverse] at h3
    exact decDigits_inj (map_digitChar_inj _ _
      (fun x hx => decDigitsAux_lt _ _ _ hx)
      (fun x hx => decDigitsAux_lt _ _ _ hx) h3)

theorem sortedCandidate_inj (base : String) {m n : ℕ}
    (h : sortedCandidate base m = sortedCandidate base n) : m = n := by
  unfold sortedCandidate at h
  have hd := congrArg String.data h
  rw [string_data_append, string_data_append, string_data_append,
    string_data_append, string_data_append, string_data_append] at hd
  have h1 := List.append_cancel_right hd
  have h2 := List.append_cancel_left h1
  apply decRepr_inj
  have : (decRepr m).data = (decRepr n).data := h2
  cases hm : decRepr m with
  | mk lm =>
    cases hn : decRepr n with
    | mk ln =>
      rw [hm, hn] at this
      simp only at this
      rw [this]

theorem exists_free_candidate (ex : List String) (base : String) :
    ∃ n, 1 ≤ n ∧ sortedCandidate base n ∉ ex := by
  by_contra hcon
  push_neg at hcon
  have hinj : Function.Injective
      (fun i : Fin (ex.length + 1) => sortedCandidate base (i.val + 1)) := by
    intro i j hij
    have := sortedCandidate_inj base hij
    exact Fin.ext (by omega)
  have hsub : (Finset.univ.image
      (fun i : Fin (ex.length + 1) => sortedCandidate base (i.val + 1)))
      ⊆ ex.toFinset := by
    intro s hs
    rw [Finset.mem_image] at hs
    obtain ⟨i, _, hi⟩ := hs
    rw [← hi, List.mem_toFinset]
    exact hcon _ (by omega)
  have hcard1 : (Finset.univ.image
      (fun i : Fin (ex.length + 1) => sortedCandidate base (i.val + 1))).card
      = ex.length + 1 := by
    rw [Finset.card_image_of_injective _ hinj, Finset.card_univ, Fintype.card_fin]
  have hcard2 := Finset.card_le_card hsub
  have hcard3 := List.toFinset_card_le ex
  omega

/-- The counter chosen by the collision loop of `_generate_unique_path`: the
least `counter ≥ 1` whose suffixed candidate does not exist. -/
def genPathNum (ex : List String) (base : String) : ℕ :=
  Nat.find (exists_free_candidate ex base)

/-- `MediaSorter._generate_unique_path`, with the file system modelled by the
list `ex` of path names that currently exist: return the base name if free,
otherwise the first free ` (counter)`-suffixed candidate. -/
def generateUniquePath (ex : List String) (dirName : String) (L : ℤ) : String :=
  let base := sortedBaseName dirName L
  if base ∈ ex then sortedCandidate base (genPathNum ex base) else base

theorem generateUniquePath_of_mem (ex : List String) (dirName : String)
    (L : ℤ) (h : sortedBaseName dirName L ∈ ex) :
    generateUniquePath ex dirName L =
      sortedCandidate (sortedBaseName dirName L)
        (genPathNum ex (sortedBaseName dirName L)) := by
  unfold generateUniquePath
  rw [if_pos h]

theorem generateUniquePath_not_mem (ex : List String) (dirName : String)
    (L : ℤ) : generateUniquePath ex dirName L ∉ ex := by
  unfold generateUniquePath
  by_cases hb : sortedBaseName dirName L ∈ ex
  · rw [if_pos hb]
    exact (Nat.find_spec (exists_free_candidate ex (sortedBaseName dirName L))).2
  · rw [if_neg hb]
    exact hb

/-- C8 (counterexample): `_generate_unique_path` is a pure function of the
file-system state, so two calls against the same state return the same path,
not two distinct paths. -/
theorem claim_C8_cex :
    sortedBaseName "d" 10 ∈ [sortedBaseName "d" 10] ∧
      ¬ (generateUniquePath [sortedBaseName "d" 10] "d" 10 ≠
          generateUniquePath [sortedBaseName "d" 10] "d" 10) := by
  exact ⟨List.mem_singleton.mpr rfl, fun hne => hne rfl⟩

/-- C8 (amended): when the base name exists, a call followed by a second call
against the state extended with the first result yields two distinct paths
carrying increasing ` (n)` suffixes, and neither call returns a path existing
at its own call time. -/
theorem claim_C8_amended (ex : List String) (dirName : String) (L : ℤ)
    (hbase : sortedBaseName dirName L ∈ ex) :
    generateUniquePath ex dirName L ∉ ex ∧
      generateUniquePath (generateUniquePath ex dirName L :: ex) dirName L ∉
        (generateUniquePath ex dirName L :: ex) ∧
      generateUniquePath ex dirName L ≠
        generateUniquePath (generateUniquePath ex dirName L :: ex) dirName L ∧
      ∃ n1 n2 : ℕ, 1 ≤ n1 ∧ n1 < n2 ∧
        generateUniquePath ex dirName L =
          sortedCandidate (sortedBaseName dirName L) n1 ∧
        generateUniquePath (generateUniquePath ex dirName L :: ex) dirName L =
          sortedCandidate (sortedBaseName dirName L) n2 := by
  have h1 := generateUniquePath_not_mem ex dirName L
  have h2 := generateUniquePath_not_mem
    (generateUniquePath ex dirName L :: ex) dirName L
  have hbase2 : sortedBaseName dirName L ∈ generateUniquePath ex dirName L :: ex :=
    List.mem_cons_of_mem _ hbase
  have hp1 := generateUniquePath_of_mem ex dirName L hbase
  have hp2 := generateUniquePath_of_mem
    (generateUniquePath ex dirName L :: ex) dirName L hbase2
  have hfind1 := Nat.find_spec (exists_free_candidate ex (sortedBaseName dirName L))
  have hfind2 := Nat.find_spec (exists_free_candidate
    (generateUniquePath ex dirName L :: ex) (sortedBaseName dirName L))
  have hne : generateUniquePath (generateUniquePath ex dirName L :: ex) dirName L ≠
      generateUniquePath ex dirName L := by
    intro hcontra
    apply h2
    rw [hcontra]
    exact List.mem_cons_self _ _
  refine ⟨h1, h2, hne.symm, genPathNum ex (sortedBaseName dirName L),
    genPathNum (generateUniquePath ex dirName L :: ex) (sortedBaseName dirName L),
    hfind1.1, ?_, hp1, hp2⟩
  have hle : genPathNum ex (sortedBaseName dirName L) ≤
      genPathNum (generateUniquePath ex dirName L :: ex)
        (sortedBaseName dirName L) := by
    apply Nat.find_min'
    refine ⟨hfind2.1, ?_⟩
    intro hmem
    exact hfind2.2 (List.mem_cons_of_mem _ hmem)
  have hneq : genPathNum ex (sortedBaseName dirName L) ≠
      genPathNum (generateUniquePath ex dirName L :: ex)
        (sortedBaseName dirName L) := by
    intro heq
    apply hne
    refine hp2.trans ?_
    rw [← heq]
    exact hp1.symm
  omega

/-- C8 witness: the amended claim instantiated on a state containing exactly
the colliding base name for directory `d` and limiter 10. -/
theorem claim_C8_witness :
    generateUniquePath [sortedBaseName "d" 10] "d" 10 ∉ [sortedBaseName "d" 10] ∧
      generateUniquePath
          (generateUniquePath [sortedBaseName "d" 10] "d" 10 ::
            [sortedBaseName "d" 10]) "d" 10 ∉
        (generateUniquePath [sortedBaseName "d" 10] "d" 10 ::
          [sortedBaseName "d" 10]) ∧
      generateUniquePath [sortedBaseName "d" 10] "d" 10 ≠
        generateUniquePath
          (generateUniquePath [sortedBaseName "d" 10] "d" 10 ::
            [sortedBaseName "d" 10]) "d" 10 ∧
      ∃ n1 n2 : ℕ, 1 ≤ n1 ∧ n1 < n2 ∧
        generateUniquePath [sortedBaseName "d" 10] "d" 10 =
          sortedCandidate (sortedBaseName "d" 10) n1 ∧
        generateUniquePath
            (generateUniquePath [sortedBaseName "d" 10] "d" 10 ::
              [sortedBaseName "d" 10]) "d" 10 =
          sortedCandidate (sortedBaseName "d" 10) n2 :=
  claim_C8_amended [sortedBaseName "d" 10] "d" 10 (List.mem_singleton.mpr rfl)

/-- The still-image suffixes checked by `_get_dimensions`. -/
def stillImageExts : List String := [".jpg", ".jpeg", ".png", ".webp", ".gif"]

/-- `MediaSorter._get_dimensions`, as a function of the lower-cased file
suffix and the collaborator outcomes: `pil` is the result of `Image.open`
(`none` models a decode error), and `meta` nests the outcomes of
`createParser` (outer, `none` when no parser), `extractMetadata` (middle),
and the width/height pair present when `metadata.has('width')` (inner).
`none` overall models raising the dimension-unavailable `ValueError`. -/
def getDimensions (suffixLower : String) (pil : Option (ℕ × ℕ))
    (meta : Option (Option (Option (ℕ × ℕ)))) : Option (ℕ × ℕ) :=
  match (if suffixLower ∈ stillImageExts then pil else none) with
  | some wh => some wh
  | none =>
    match meta with
    | some (some (some wh)) => some wh
    | _ => none

/-- C9 (counterexample): a decode collaborator reporting width 0 is passed
through unvalidated, so the probe does not always return positive integers. -/
theorem claim_C9_cex :
    ¬ (∀ wh : ℕ × ℕ, getDimensions ".jpg" (some (0, 5)) none = some wh →
        0 < wh.1 ∧ 0 < wh.2) := by
  intro h
  have h2 := h (0, 5) rfl
  exact absurd h2.1 (by omega)

/-- C9 (amended): `_get_dimensions` returns exactly the pair yielded by the
first available source — the image decoder for still-image suffixes, else the
metadata extractor — without any positivity validation, and fails precisely
when neither source yields a width. -/
theorem claim_C9_amended (suffixLower : String) (pil : Option (ℕ × ℕ))
    (meta : Option (Option (Option (ℕ × ℕ)))) :
    (getDimensions suffixLower pil meta = none ↔
      ((suffixLower ∈ stillImageExts → pil = none) ∧
        ∀ wh, meta ≠ some (some (some wh)))) ∧
    (∀ wh, suffixLower ∈ stillImageExts → pil = some wh →
      getDimensions suffixLower pil meta = some wh) ∧
    (∀ wh, (suffixLower ∉ stillImageExts ∨ pil = none) →
      meta = some (some (some wh)) →
      getDimensions suffixLower pil meta = some wh) := by
  unfold getDimensions
  by_cases hmem : suffixLower ∈ stillImageExts
  · rw [if_pos hmem]
    cases pil with
    | none =>
      simp only
      rcases meta with _ | mo
      · simp
      · rcases mo with _ | mi
        · simp
        · rcases mi with _ | wh
          · simp
          · simp
    | some wh0 =>
      simp only
      refine ⟨⟨fun h => by simp at h, fun h => absurd (h.1 hmem) (by simp)⟩, ?_, ?_⟩
      · intro wh _ hp
        injection hp with hp'
        rw [hp']
      · intro wh hor _
        rcases hor with h | h
        · exact absurd hmem h
        · simp at h
  · rw [if_neg hmem]
    simp only
    rcases meta with _ | mo
    · simp [hmem]
    · rcases mo with _ | mi
      · simp [hmem]
      · rcases mi with _ | wh
        · simp [hmem]
        · simp [hmem]

/-- C9 witness: the amended claim instantiated for a video suffix where only
the metadata extractor yields a width/height pair. -/
theorem claim_C9_witness :
    getDimensions ".mp4" none (some (some (some (1920, 1080)))) =
      some (1920, 1080) :=
  (claim_C9_amended ".mp4" none (some (some (some (1920, 1080))))).2.2
    (1920, 1080) (Or.inr rfl) rfl

/-- One directory entry together with the behaviour of the file-system and
decoding collaborators on it during the run. -/
structure FileEntry where
  name : String
  suffixLower : String
  pil : Option (ℕ × ℕ)
  meta : Option (Option (Option (ℕ × ℕ)))
  mkdirOk : Bool
  size : ℕ
  relocateOk : Bool
deriving Repr, DecidableEq

/-- The recognised extensions of `run`. -/
def validExtensions : List String :=
  [".jpg", ".jpeg", ".png", ".webp", ".gif", ".mp4", ".mkv", ".mov"]

/-- The try-block body of `run` for a single file: probe dimensions, divide
width by height (raising on height 0), approximate the ratio, create the
subdirectory, and relocate. `some (label, size)` when every step succeeds;
`none` when any step raises (the except branch). -/
def processFile (L : ℤ) (f : FileEntry) : Option (String × ℕ) :=
  match getDimensions f.suffixLower f.pil f.meta with
  | none => none
  | some (w, h) =>
    if h = 0 then none
    else
      let xy := applyLimiter ((w : ℚ) / (h : ℚ)) L
      let label := decRepr xy.1 ++ "X" ++ decRepr xy.2
      if f.mkdirOk then
        (if f.relocateOk then some (label, f.size) else none)
      else none

/-- Mutable state of a `run`: the insertion-ordered `Counter`, the byte
total, and the log of per-file errors. -/
structure RunState where
  stats : List (String × ℕ)
  totalSizeBytes : ℕ
  errors : List String
deriving Repr, DecidableEq

/-- `self.stats[label] += 1` on an insertion-ordered counter. -/
def bumpStat : List (String × ℕ) → String → List (String × ℕ)
  | [], l => [(l, 1)]
  | (k, v) :: rest, l =>
    if k = l then (k, v + 1) :: rest else (k, v) :: bumpStat rest l

/-- The body of the `for file in self.target_path.iterdir()` loop. -/
def runStep (L : ℤ) (st : RunState) (f : FileEntry) : RunState :=
  if f.suffixLower ∈ validExtensions then
    match processFile L f with
    | some (label, sz) =>
      { st with stats := bumpStat st.stats label,
                totalSizeBytes := st.totalSizeBytes + sz }
    | none => { st with errors := st.errors ++ [f.name] }
  else st

/-- The whole iteration of `run` over the directory entries. -/
def runFiles (L : ℤ) (files : List FileEntry) : RunState :=
  files.foldl (runStep L) ⟨[], 0, []⟩

theorem runStep_err {L : ℤ} {f : FileEntry}
    (hext : f.suffixLower ∈ validExtensions)
    (hfail : processFile L f = none) (st : RunState) :
    runStep L st f = ⟨st.stats, st.totalSizeBytes, st.errors ++ [f.name]⟩ := by
  unfold runStep
  rw [if_pos hext, hfail]

theorem runStep_ok {L : ℤ} {f : FileEntry} {label : String} {sz : ℕ}
    (hext : f.suffixLower ∈ validExtensions)
    (hok : processFile L f = some (label, sz)) (st : RunState) :
    runStep L st f = ⟨bumpStat st.stats label, st.totalSizeBytes + sz, st.errors⟩ := by
  unfold runStep
  rw [if_pos hext, hok]

theorem runStep_skip {L : ℤ} {f : FileEntry}
    (hext : f.suffixLower ∉ validExtensions) (st : RunState) :
    runStep L st f = st := by
  unfold runStep
  rw [if_neg hext]

theorem runFold_congr (L : ℤ) : ∀ (files : List FileEntry) (s1 s2 : RunState),
    s1.stats = s2.stats → s1.totalSizeBytes = s2.totalSizeBytes →
    (files.foldl (runStep L) s1).stats = (files.foldl (runStep L) s2).stats ∧
      (files.foldl (runStep L) s1).totalSizeBytes =
        (files.foldl (runStep L) s2).totalSizeBytes ∧
      (files.foldl (runStep L) s1).errors.length + s2.errors.length =
        (files.foldl (runStep L) s2).errors.length + s1.errors.length := by
  intro files
  induction files with
  | nil =>
    intro s1 s2 h1 h2
    simp only [List.foldl_nil]
    exact ⟨h1, h2, by omega⟩
  | cons f fs ih =>
    intro s1 s2 h1 h2
    rw [List.foldl_cons, List.foldl_cons]
    by_cases hext : f.suffixLower ∈ validExtensions
    · cases hp : processFile L f with
      | some v =>
        obtain ⟨label, sz⟩ := v
        rw [runStep_ok hext hp s1, runStep_ok hext hp s2]
        exact ih _ _ (by rw [h1]) (by rw [h2])
      | none =>
        rw [runStep_err hext hp s1, runStep_err hext hp s2]
        obtain ⟨c1, c2, c3⟩ := ih ⟨s1.stats, s1.totalSizeBytes, s1.errors ++ [f.name]⟩
          ⟨s2.stats, s2.totalSizeBytes, s2.errors ++ [f.name]⟩ h1 h2
        refine ⟨c1, c2, ?_⟩
        simp only [List.length_append, List.length_singleton] at c3
        omega
    · rw [runStep_skip hext s1, runStep_skip hext s2]
      exact ih s1 s2 h1 h2

/-- C7 (confirmed): per-file error isolation. If any step of processing file
`f` raises, the run over `pre ++ [f] ++ post` has exactly the same per-label
counts and byte total as the run over `pre ++ post` — the failed file
contributes nothing and the remaining files are still processed — and
exactly one more logged error. -/
theorem claim_C7_isolation (L : ℤ) (pre post : List FileEntry) (f : FileEntry)
    (hext : f.suffixLower ∈ validExtensions) (hfail : processFile L f = none) :
    (runFiles L (pre ++ f :: post)).stats = (runFiles L (pre ++ post)).stats ∧
      (runFiles L (pre ++ f :: post)).totalSizeBytes =
        (runFiles L (pre ++ post)).totalSizeBytes ∧
      (runFiles L (pre ++ f :: post)).errors.length =
        (runFiles L (pre ++ post)).errors.length + 1 := by
  unfold runFiles
  rw [List.foldl_append, List.foldl_append, List.foldl_cons]
  rw [runStep_err hext hfail (pre.foldl (runStep L) ⟨[], 0, []⟩)]
  obtain ⟨c1, c2, c3⟩ := runFold_congr L post
    ⟨(pre.foldl (runStep L) ⟨[], 0, []⟩).stats,
      (pre.foldl (runStep L) ⟨[], 0, []⟩).totalSizeBytes,
      (pre.foldl (runStep L) ⟨[], 0, []⟩).errors ++ [f.name]⟩
    (pre.foldl (runStep L) ⟨[], 0, []⟩) rfl rfl
  refine ⟨c1, c2, ?_⟩
  simp only [List.length_append, List.length_singleton] at c3
  omega

/-- C7 witness: the isolation theorem instantiated for a single corrupt
`.jpg` entry (both collaborators fail to yield dimensions). -/
theorem claim_C7_witness :
    (runFiles 10 ([] ++ FileEntry.mk "bad.jpg" ".jpg" none none true 0 true :: [])).stats =
        (runFiles 10 ([] ++ [])).stats ∧
      (runFiles 10 ([] ++ FileEntry.mk "bad.jpg" ".jpg" none none true 0 true :: [])).totalSizeBytes =
        (runFiles 10 ([] ++ [])).totalSizeBytes ∧
      (runFiles 10 ([] ++ FileEntry.mk "bad.jpg" ".jpg" none none true 0 true :: [])).errors.length =
        (runFiles 10 ([] ++ [])).errors.length + 1 :=
  claim_C7_isolation 10 [] [] (FileEntry.mk "bad.jpg" ".jpg" none none true 0 true)
    (by decide) rfl

/-- `sum(self.stats.values())`. -/
def sumCounts (stats : List (String × ℕ)) : ℕ := (stats.map Prod.snd).sum

/-- One comparison step of `Counter.most_common(1)`: keep the current best
unless the next entry is strictly more frequent (stable, so ties keep the
earlier-inserted label). -/
def mcStep (best kv : String × ℕ) : String × ℕ := if best.2 < kv.2 then kv else best

/-- `self.stats.most_common(1)`: `none` on an empty counter, else the first
entry of maximal count in insertion order. -/
def mostCommon1 : List (String × ℕ) → Option (String × ℕ)
  | [] => none
  | e :: rest => some (rest.foldl mcStep e)

/-- Round a rational to the nearest integer, ties to even — the rounding
`f"{value:.2f}"` applies to an exactly-represented binary value. -/
def roundHalfEven (q : ℚ) : ℤ :=
  if q - ⌊q⌋ < 1 / 2 then ⌊q⌋
  else if 1 / 2 < q - ⌊q⌋ then ⌊q⌋ + 1
  else if ⌊q⌋ % 2 = 0 then ⌊q⌋ else ⌊q⌋ + 1

/-- The figures printed by `_print_summary`: the total file count, the data
size in hundredths of a MiB (two-decimal rendering of
`total_size_bytes / (1024 * 1024)`), and the optional most-common line. -/
structure SortSummary where
  totalFiles : ℕ
  sizeCentiMB : ℤ
  mostCommon : Option (String × ℕ)
deriving Repr, DecidableEq

/-- `MediaSorter._print_summary` as a function of the run state. -/
def printSummary (st : RunState) : SortSummary :=
  ⟨sumCounts st.stats,
   roundHalfEven ((st.totalSizeBytes : ℚ) * 100 / (1024 * 1024)),
   mostCommon1 st.stats⟩

/-- A directory entry counts as processed when its extension is recognised
and no step of its per-file pipeline raises. -/
def isProcessed (L : ℤ) (f : FileEntry) : Bool :=
  decide (f.suffixLower ∈ validExtensions) && (processFile L f).isSome

def processedCount (L : ℤ) (files : List FileEntry) : ℕ :=
  (files.filter (isProcessed L)).length

def processedBytes (L : ℤ) (files : List FileEntry) : ℕ :=
  ((files.filter (isProcessed L)).map FileEntry.size).sum

theorem sumCounts_bumpStat : ∀ (stats : List (String × ℕ)) (l : String),
    sumCounts (bumpStat stats l) = sumCounts stats + 1 := by
  intro stats
  induction stats with
  | nil => intro l; rfl
  | cons kv rest ih =>
    intro l
    obtain ⟨k, v⟩ := kv
    rw [bumpStat]
    by_cases hk : k = l
    · rw [if_pos hk]
      unfold sumCounts
      rw [List.map_cons, List.map_cons, List.sum_cons, List.sum_cons]
      omega
    · rw [if_neg hk]
      unfold sumCounts
      rw [List.map_cons, List.map_cons, List.sum_cons, List.sum_cons]
      have h2 : ((bumpStat rest l).map Prod.snd).sum = (rest.map Prod.snd).sum + 1 :=
        ih l
      linarith

theorem bumpStat_pos : ∀ (stats : List (String × ℕ)) (l : String),
    (∀ kv ∈ stats, 1 ≤ kv.2) → ∀ kv ∈ bumpStat stats l, 1 ≤ kv.2 := by
  intro stats
  induction stats with
  | nil =>
    intro l _ kv hkv
    have h1 : kv = (l, 1) := List.mem_singleton.mp hkv
    rw [h1]
  | cons e rest ih =>
    intro l h kv hkv
    obtain ⟨k, v⟩ := e
    rw [bumpStat] at hkv
    by_cases hk : k = l
    · rw [if_pos hk] at hkv
      rcases List.mem_cons.mp hkv with h1 | h1
      · subst h1; simp
      · exact h kv (List.mem_cons_of_mem _ h1)
    · rw [if_neg hk] at hkv
      rcases List.mem_cons.mp hkv with h1 | h1
      · subst h1
        exact h (k, v) (List.mem_cons_self _ _)
      · exact ih l (fun kv2 hkv2 => h kv2 (List.mem_cons_of_mem _ hkv2)) kv h1

theorem processFile_size {L : ℤ} {f : FileEntry} {label : String} {sz : ℕ}
    (hp : processFile L f = some (label, sz)) : sz = f.size := by
  unfold processFile at hp
  cases hd : getDimensions f.suffixLower f.pil f.meta with
  | none => rw [hd] at hp; simp at hp
  | some wh =>
    rw [hd] at hp
    obtain ⟨w, h⟩ := wh
    simp only at hp
    split at hp
    · simp at hp
    · split at hp
      · split at hp
        · simp only [Option.some.injEq, Prod.mk.injEq] at hp
          exact hp.2.symm
        · simp at hp
      · simp at hp

theorem runFold_totals (L : ℤ) : ∀ (files : List FileEntry) (s : RunState),
    sumCounts (files.foldl (runStep L) s).stats =
      sumCounts s.stats + processedCount L files ∧
    (files.foldl (runStep L) s).totalSizeBytes =
      s.totalSizeBytes + processedBytes L files := by
  intro files
  induction files with
  | nil =>
    intro s
    simp [processedCount, processedBytes]
  | cons f fs ih =>
    intro s
    rw [List.foldl_cons]
    by_cases hext : f.suffixLower ∈ validExtensions
    · cases hp : processFile L f with
      | some v =>
        obtain ⟨label, sz⟩ := v
        have hproc : isProcessed L f = true := by
          simp [isProcessed, hext, hp]
        rw [runStep_ok hext hp s]
        obtain ⟨i1, i2⟩ := ih ⟨bumpStat s.stats label, s.totalSizeBytes + sz, s.errors⟩
        dsimp only at i1 i2
        refine ⟨?_, ?_⟩
        · rw [i1]
          simp only [processedCount, List.filter_cons, hproc, if_true,
            List.length_cons]
          rw [sumCounts_bumpStat]
          omega
        · rw [i2]
          have hsz := processFile_size hp
          simp only [processedBytes, List.filter_cons, hproc, if_true,
            List.map_cons, List.sum_cons]
          omega
      | none =>
        have hproc : isProcessed L f = false := by
          simp [isProcessed, hp]
        rw [runStep_err hext hp s]
        obtain ⟨i1, i2⟩ := ih ⟨s.stats, s.totalSizeBytes, s.errors ++ [f.name]⟩
        dsimp only at i1 i2
        refine ⟨?_, ?_⟩
        · rw [i1]
          simp [processedCount, List.filter_cons, hproc]
        · rw [i2]
          simp [processedBytes, List.filter_cons, hproc]
    · have hproc : isProcessed L f = false := by
        simp [isProcessed, hext]
      rw [runStep_skip hext s]
      obtain ⟨i1, i2⟩ := ih s
      refine ⟨?_, ?_⟩
      · rw [i1]
        simp [processedCount, List.filter_cons, hproc]
      · rw [i2]
        simp [processedBytes, List.filter_cons, hproc]

theorem runFold_pos (L : ℤ) : ∀ (files : List FileEntry) (s : RunState),
    (∀ kv ∈ s.stats, 1 ≤ kv.2) →
    ∀ kv ∈ (files.foldl (runStep L) s).stats, 1 ≤ kv.2 := by
  intro files
  induction files with
  | nil => intro s h; simpa using h
  | cons f fs ih =>
    intro s h
    rw [List.foldl_cons]
    by_cases hext : f.suffixLower ∈ validExtensions
    · cases hp : processFile L f with
      | some v =>
        obtain ⟨label, sz⟩ := v
        rw [runStep_ok hext hp s]
        exact ih _ (bumpStat_pos s.stats label h)
      | none =>
        rw [runStep_err hext hp s]
        exact ih _ h
    · rw [runStep_skip hext s]
      exact ih s h

theorem foldl_argmax_spec : ∀ (rest : List (String × ℕ)) (e : String × ℕ),
    e.2 ≤ (rest.foldl mcStep e).2 ∧
      ∃ s1 s2, e :: rest = s1 ++ (rest.foldl mcStep e) :: s2 ∧
        (∀ kv ∈ s1, kv.2 < (rest.foldl mcStep e).2) ∧
        (∀ kv ∈ s2, kv.2 ≤ (rest.foldl mcStep e).2) := by
  intro rest
  induction rest with
  | nil =>
    intro e
    exact ⟨le_refl _, [], [], rfl, by simp, by simp⟩
  | cons kv rest' ih =>
    intro e
    rw [List.foldl_cons]
    by_cases hlt : e.2 < kv.2
    · have hstep : mcStep e kv = kv := by unfold mcStep; rw [if_pos hlt]
      rw [hstep]
      obtain ⟨hle, s1', s2', hsplit, hs1, hs2⟩ := ih kv
      refine ⟨by omega, e :: s1', s2', ?_, ?_, hs2⟩
      · rw [List.cons_append, ← hsplit]
      · intro kv2 hkv2
        rcases List.mem_cons.mp hkv2 with h1 | h1
        · rw [h1]; omega
        · exact hs1 _ h1
    · have hstep : mcStep e kv = e := by unfold mcStep; rw [if_neg hlt]
      rw [hstep]
      obtain ⟨hle, s1', s2', hsplit, hs1, hs2⟩ := ih e
      cases s1' with
      | nil =>
        simp only [List.nil_append] at hsplit
        injection hsplit with he hrest
        refine ⟨hle, [], kv :: s2', ?_, by simp, ?_⟩
        · simp only [List.nil_append]
          rw [← he, ← hrest]
        · intro kv2 hkv2
          rcases List.mem_cons.mp hkv2 with h1 | h1
          · rw [h1]; omega
          · exact hs2 _ h1
      | cons hd t =>
        simp only [List.cons_append] at hsplit
        injection hsplit with he hrest
        refine ⟨hle, e :: kv :: t, s2', ?_, ?_, hs2⟩
        · simp only [List.cons_append]
          rw [← hrest]
        · intro kv2 hkv2
          have hhd : hd.2 < (rest'.foldl mcStep e).2 :=
            hs1 hd (List.mem_cons_self _ _)
          have he2 : e.2 = hd.2 := by rw [he]
          rcases List.mem_cons.mp hkv2 with h1 | h1
          · rw [h1]; omega
          · rcases List.mem_cons.mp h1 with h2 | h2
            · rw [h2]; omega
            · exact hs1 _ (List.mem_cons_of_mem _ h2)

theorem roundHalfEven_abs (q : ℚ) :
    |((roundHalfEven q : ℤ) : ℚ) - q| ≤ 1 / 2 := by
  have h1 : (⌊q⌋ : ℚ) ≤ q := Int.floor_le q
  have h2 : q < ⌊q⌋ + 1 := Int.lt_floor_add_one q
  unfold roundHalfEven
  split
  · rename_i hc
    rw [abs_le]
    constructor <;> push_cast <;> linarith
  · rename_i hc1
    split
    · rename_i hc2
      rw [abs_le]
      constructor <;> push_cast <;> linarith
    · rename_i hc2
      have heq : q - ⌊q⌋ = 1 / 2 :=
        le_antisymm (le_of_not_lt hc2) (le_of_not_lt hc1)
      split <;> (rw [abs_le]; constructor <;> push_cast <;> linarith)

theorem roundHalfEven_zero : roundHalfEven 0 = 0 := by
  norm_num [roundHalfEven]

/-- C10 (confirmed): `_print_summary` reports the number of successfully
processed files as the sum of per-label counts (equal to the count of files
that completed the pipeline), the byte total of those files converted to MiB
at two-decimal precision (within half a hundredth of the exact value), the
first-encountered most frequent label when at least one file was processed,
and zero totals with no most-common entry when none was. -/
theorem claim_C10_summary (L : ℤ) (files : List FileEntry) :
    (printSummary (runFiles L files)).totalFiles = processedCount L files ∧
      (runFiles L files).totalSizeBytes = processedBytes L files ∧
      |(((printSummary (runFiles L files)).sizeCentiMB : ℚ)) / 100 -
          ((runFiles L files).totalSizeBytes : ℚ) / (1024 * 1024)| ≤ 1 / 200 ∧
      (processedCount L files = 0 →
        printSummary (runFiles L files) = ⟨0, 0, none⟩) ∧
      (0 < processedCount L files →
        ∃ l c s1 s2,
          (printSummary (runFiles L files)).mostCommon = some (l, c) ∧
            (runFiles L files).stats = s1 ++ (l, c) :: s2 ∧
            (∀ kv ∈ s1, kv.2 < c) ∧ (∀ kv ∈ s2, kv.2 ≤ c)) := by
  obtain ⟨t1, t2⟩ := runFold_totals L files ⟨[], 0, []⟩
  dsimp only at t1 t2
  have t1' : sumCounts (runFiles L files).stats = processedCount L files := by
    unfold runFiles
    rw [t1]
    simp [sumCounts]
  have t2' : (runFiles L files).totalSizeBytes = processedBytes L files := by
    unfold runFiles
    rw [t2]
    omega
  refine ⟨t1', t2', ?_, ?_, ?_⟩
  · have habs := roundHalfEven_abs
      (((runFiles L files).totalSizeBytes : ℚ) * 100 / (1024 * 1024))
    have hq : ((runFiles L files).totalSizeBytes : ℚ) / (1024 * 1024) =
        (((runFiles L files).totalSizeBytes : ℚ) * 100 / (1024 * 1024)) / 100 := by
      ring
    show |((roundHalfEven (((runFiles L files).totalSizeBytes : ℚ) * 100 /
        (1024 * 1024)) : ℤ) : ℚ) / 100 -
        ((runFiles L files).totalSizeBytes : ℚ) / (1024 * 1024)| ≤ 1 / 200
    rw [hq, div_sub_div_same, abs_div]
    rw [show |(100 : ℚ)| = 100 from abs_of_pos (by norm_num)]
    rw [show (1 : ℚ) / 200 = (1 / 2) / 100 by norm_num]
    exact (div_le_div_iff_of_pos_right (by norm_num)).mpr habs
  · intro hzero
    have hpos : ∀ kv ∈ (runFiles L files).stats, 1 ≤ kv.2 :=
      runFold_pos L files ⟨[], 0, []⟩ (by intro kv h; simp at h)
    have hstats : (runFiles L files).stats = [] := by
      have hsum : sumCounts (runFiles L files).stats = 0 := by rw [t1', hzero]
      cases hl : (runFiles L files).stats with
      | nil => rfl
      | cons kv rest =>
        exfalso
        have hk := hpos kv (by rw [hl]; exact List.mem_cons_self _ _)
        rw [hl] at hsum
        unfold sumCounts at hsum
        rw [List.map_cons, List.sum_cons] at hsum
        omega
    have hfe : files.filter (isProcessed L) = [] := by
      have : (files.filter (isProcessed L)).length = 0 := hzero
      exact List.length_eq_zero.mp this
    have hbytes : (runFiles L files).totalSizeBytes = 0 := by
      rw [t2']
      unfold processedBytes
      rw [hfe]
      rfl
    unfold printSummary
    rw [hstats, hbytes]
    have hz : ((0 : ℕ) : ℚ) * 100 / (1024 * 1024) = 0 := by norm_num
    rw [hz, roundHalfEven_zero]
    rfl
  · intro hposcount
    cases hl : (runFiles L files).stats with
    | nil =>
      exfalso
      have : sumCounts (runFiles L files).stats = 0 := by rw [hl]; rfl
      omega
    | cons e rest =>
      obtain ⟨hle, s1, s2, hsplit, hs1, hs2⟩ := foldl_argmax_spec rest e
      refine ⟨(rest.foldl mcStep e).1, (rest.foldl mcStep e).2, s1, s2, ?_, ?_,
        fun kv h => hs1 kv h, fun kv h => hs2 kv h⟩
      · show mostCommon1 (runFiles L files).stats = _
        rw [hl]
        rfl
      · rw [hsplit]

/-- C10 witness: the summary theorem instantiated on a run over one corrupt
entry, exercising the zero-processed branch. -/
theorem claim_C10_witness :
    (printSummary (runFiles 10 [FileEntry.mk "bad.mkv" ".mkv" none none true 7 true])).totalFiles =
        processedCount 10 [FileEntry.mk "bad.mkv" ".mkv" none none true 7 true] ∧
      (runFiles 10 [FileEntry.mk "bad.mkv" ".mkv" none none true 7 true]).totalSizeBytes =
        processedBytes 10 [FileEntry.mk "bad.mkv" ".mkv" none none true 7 true] ∧
      |(((printSummary (runFiles 10 [FileEntry.mk "bad.mkv" ".mkv" none none true 7 true])).sizeCentiMB : ℚ)) / 100 -
          ((runFiles 10 [FileEntry.mk "bad.mkv" ".mkv" none none true 7 true]).totalSizeBytes : ℚ) / (1024 * 1024)| ≤ 1 / 200 ∧
      (processedCount 10 [FileEntry.mk "bad.mkv" ".mkv" none none true 7 true] = 0 →
        printSummary (runFiles 10 [FileEntry.mk "bad.mkv" ".mkv" none none true 7 true]) = ⟨0, 0, none⟩) ∧
      (0 < processedCount 10 [FileEntry.mk "bad.mkv" ".mkv" none none true 7 true] →
        ∃ l c s1 s2,
          (printSummary (runFiles 10 [FileEntry.mk "bad.mkv" ".mkv" none none true 7 true])).mostCommon = some (l, c) ∧
            (runFiles 10 [FileEntry.mk "bad.mkv" ".mkv" none none true 7 true]).stats = s1 ++ (l, c) :: s2 ∧
            (∀ kv ∈ s1, kv.2 < c) ∧ (∀ kv ∈ s2, kv.2 ≤ c)) :=
  claim_C10_summary 10 [FileEntry.mk "bad.mkv" ".mkv" none none true 7 true]
